import Mathlib

/-!
Shallow embedding, in Lean 4, of the note-index build/refresh engine and the
match-resolution algorithm of the `obsidian-tooltips` VS Code extension
(`src/obsidian/vaultSearch.js`, `src/obsidian/noteFetcher.js`,
`src/obsidian/vaultStateManager.js`, `src/utils/cache.js`), together with
theorems checking the natural-language specification against it.

JavaScript strings are modelled as lists of UTF-16 code units (`List Nat`);
all inputs of interest are ASCII, where code units coincide with code points.
Platform functions (`path.basename`, `path.extname`, `String.prototype`
methods, the character classes of the regexes used by the source) are
embedded directly, restricted to ASCII where the platform is Unicode-aware.
-/

namespace ObsidianTooltips

/-- JavaScript string: sequence of UTF-16 code units. -/
abbrev JsStr := List Nat

/-- Embed a Lean string literal as a `JsStr` (ASCII inputs only are used). -/
def jsStr (s : String) : JsStr := s.data.map Char.toNat

/-- JS `\w` character class (ASCII word characters `[A-Za-z0-9_]`). -/
def isWordChar (c : Nat) : Bool :=
  (65 ≤ c && c ≤ 90) || (97 ≤ c && c ≤ 122) || (48 ≤ c && c ≤ 57) || c == 95

/-- Character class `[\w.-]` from the regex in `normalizeForComparison`
(`vaultSearch.js` line 149): word characters, dot (46) and hyphen (45). -/
def isAllowedTrailing (c : Nat) : Bool :=
  isWordChar c || c == 46 || c == 45

/-- JS `String.prototype.toLowerCase`, ASCII fragment: `A`-`Z` map to
`a`-`z`, all other code units are unchanged. -/
def jsCharToLower (c : Nat) : Nat :=
  if 65 ≤ c ∧ c ≤ 90 then c + 32 else c

/-- `str.toLowerCase()` on the ASCII fragment. -/
def jsToLower (s : JsStr) : JsStr := s.map jsCharToLower

/-- `str.replace(/[^\w.-]+$/, "")`: remove the maximal trailing run of
characters outside the allowed set. -/
def stripTrailingDisallowed (s : JsStr) : JsStr :=
  (s.reverse.dropWhile (fun c => !isAllowedTrailing c)).reverse

/-- `normalizeForComparison` (`vaultSearch.js` lines 148-154). -/
def normalizeForComparison (str : JsStr) (caseInsensitive : Bool) : JsStr :=
  let normalized := stripTrailingDisallowed str
  if caseInsensitive then jsToLower normalized else normalized

/-- JS `String.prototype.split` with a one-code-unit separator: the list of
(possibly empty) chunks between occurrences of `sep`; never empty. -/
def splitChar (sep : Nat) : JsStr → List JsStr
  | [] => [[]]
  | x :: xs =>
    if x == sep then [] :: splitChar sep xs
    else
      match splitChar sep xs with
      | [] => [x :: []]
      | h :: t => (x :: h) :: t

/-- Node `path.basename` (POSIX): last path component, ignoring trailing
separators. -/
def basename (p : JsStr) : JsStr :=
  let q := (p.reverse.dropWhile (fun c => c == 47)).reverse
  (splitChar 47 q).getLastD q

/-- Node `path.basename(p, ".md")`: `basename` with a trailing `".md"`
removed when the basename ends with it and is not itself `".md"`. -/
def basenameMd (p : JsStr) : JsStr :=
  let b := basename p
  if b != jsStr ".md" && (jsStr ".md").isSuffixOf b then b.take (b.length - 3)
  else b

/-- Node `path.extname` for a bare entry name (no separators): the suffix
from the last dot, empty when there is no dot or the only dot is leading. -/
def extname (name : JsStr) : JsStr :=
  let afterDot := name.reverse.takeWhile (fun c => c ≠ 46)
  if afterDot.length == name.length then []
  else if afterDot.length + 1 == name.length then []
  else 46 :: afterDot.reverse

/-! ## Data model: note records and match results -/

/-- Value stored in the in-memory notes cache under a relative path key
(`vaultStateManager.js` lines 41-45). -/
structure NoteInfo where
  fullPath : JsStr
  aliases : List JsStr
  uri : JsStr
deriving DecidableEq, Repr

/-- The in-memory notes cache: a JS `Map` from vault-relative path to
`NoteInfo`, kept as its entry list in insertion order (keys unique while the
`Map` invariant holds). -/
abbrev NotesCache := List (JsStr × NoteInfo)

/-- Result object returned by `findExactMatch` (`vaultSearch.js`
lines 115-120 and 133-139); `matchedAlias` is absent (`none`) on filename
matches and present on alias matches. -/
structure MatchResult where
  path : JsStr
  fullPath : JsStr
  type : JsStr
  matchedAlias : Option JsStr
  uri : JsStr
deriving DecidableEq, Repr

/-- The object literal returned on a filename match (lines 115-120). -/
def filenameResult (relativePath : JsStr) (noteInfo : NoteInfo) : MatchResult :=
  { path := relativePath, fullPath := noteInfo.fullPath,
    type := jsStr "filename", matchedAlias := none, uri := noteInfo.uri }

/-- The object literal returned on an alias match (lines 133-139). -/
def aliasResult (relativePath : JsStr) (noteInfo : NoteInfo) (al : JsStr) :
    MatchResult :=
  { path := relativePath, fullPath := noteInfo.fullPath,
    type := jsStr "alias", matchedAlias := some al, uri := noteInfo.uri }

/-- `SEARCH_CONFIG` (`config/searchConfig.js`): only the comparison flag is
consumed by match resolution. -/
structure SearchConfig where
  CASE_INSENSITIVE : Bool

/-! ## Match resolution (`findExactMatch`, `findNoteMatch`) -/

/-- The per-field comparison key of `findExactMatch` (lines 108-111 for the
filename, 125-130 for an alias): normalize when `applyNormalization`, else
lower-case exactly when `caseInsensitive`. -/
def compareField (s : JsStr) (caseInsensitive applyNormalization : Bool) : JsStr :=
  if applyNormalization then normalizeForComparison s caseInsensitive
  else if caseInsensitive then jsToLower s else s

/-- Inner loop of `findExactMatch` over one record's aliases
(lines 124-141). -/
def aliasLoop (normalizedSearch : JsStr) (ci norm : Bool) (relativePath : JsStr)
    (noteInfo : NoteInfo) : List JsStr → Option MatchResult
  | [] => none
  | al :: rest =>
    if compareField al ci norm == normalizedSearch then
      some (aliasResult relativePath noteInfo al)
    else aliasLoop normalizedSearch ci norm relativePath noteInfo rest

/-- Outer loop of `findExactMatch` over the cache entries (lines 104-142):
the filename-derived title is compared first, then the record's aliases, and
the first match returns immediately. -/
def findLoop (normalizedSearch : JsStr) (ci norm : Bool) :
    NotesCache → Option MatchResult
  | [] => none
  | (relativePath, noteInfo) :: rest =>
    let fileName := basenameMd relativePath
    if compareField fileName ci norm == normalizedSearch then
      some (filenameResult relativePath noteInfo)
    else
      match aliasLoop normalizedSearch ci norm relativePath noteInfo
          noteInfo.aliases with
      | some r => some r
      | none => findLoop normalizedSearch ci norm rest

/-- `findExactMatch` (`vaultSearch.js` lines 99-145). -/
def findExactMatch (searchWord : JsStr) (caseInsensitive applyNormalization : Bool)
    (notesCache : NotesCache) : Option MatchResult :=
  let normalizedSearch := if caseInsensitive then jsToLower searchWord else searchWord
  findLoop normalizedSearch caseInsensitive applyNormalization notesCache

/-- `findNoteMatch` (`vaultSearch.js` lines 84-96): raw pass, then, only on
failure, the normalized pass. -/
def findNoteMatch (word : JsStr) (notesCache : NotesCache)
    (searchConfig : SearchConfig) : Option MatchResult :=
  let caseInsensitive := searchConfig.CASE_INSENSITIVE
  match findExactMatch word caseInsensitive false notesCache with
  | some exactMatch => some exactMatch
  | none =>
    let normalizedWord := normalizeForComparison word caseInsensitive
    findExactMatch normalizedWord caseInsensitive true notesCache

/-! ## Declarative reformulation of one pass, for the ordering claims -/

/-- All matches one record contributes in one pass, in source order: the
filename-derived title first, then the aliases in declaration order. -/
def recordCandidates (normalizedSearch : JsStr) (ci norm : Bool) (rp : JsStr)
    (info : NoteInfo) : List MatchResult :=
  (if compareField (basenameMd rp) ci norm == normalizedSearch then
    [filenameResult rp info] else [])
  ++ info.aliases.filterMap (fun al =>
      if compareField al ci norm == normalizedSearch then
        some (aliasResult rp info al) else none)

/-- All matches of one pass over the whole cache, in index insertion order. -/
def passCandidates (searchWord : JsStr) (ci norm : Bool) (cache : NotesCache) :
    List MatchResult :=
  cache.flatMap (fun p =>
    recordCandidates (if ci then jsToLower searchWord else searchWord) ci norm
      p.1 p.2)

/-! ## Front-matter alias extraction (`extractAliases`) -/

/-- JS `String.prototype.indexOf(needle, start)` helper: scans `hay` from
logical index `i`. -/
def indexOfAux (needle : JsStr) : JsStr → Nat → Option Nat
  | [], i => if needle == [] then some i else none
  | hay@(_ :: t), i =>
    if needle.isPrefixOf hay then some i else indexOfAux needle t (i + 1)

/-- JS `s.indexOf(needle, start)`; `none` models the `-1` result. -/
def jsIndexOf (s needle : JsStr) (start : Nat) : Option Nat :=
  indexOfAux needle (s.drop start) start

/-- JS whitespace class used by `String.prototype.trim` (ASCII fragment:
space and the control characters `\t\n\v\f\r`). -/
def isJsSpace (c : Nat) : Bool := c == 32 || (9 ≤ c && c ≤ 13)

/-- JS `String.prototype.trim` on the ASCII fragment. -/
def jsTrim (s : JsStr) : JsStr :=
  ((s.dropWhile isJsSpace).reverse.dropWhile isJsSpace).reverse

/-- The capture group `((?:  - .*\n)*)` of the regex at `vaultSearch.js`
line 32: each starred iteration consumes one full newline-terminated line
starting with `"  - "` (`.` does not match a newline), so the group is the
maximal such run.  The newline-terminated lines from a position are exactly
the chunks of the split on `\n` other than the final (unterminated) one,
and the maximal run is their longest matching prefix, re-terminated. -/
def takeDashLines (l : JsStr) : JsStr :=
  ((splitChar 10 l).dropLast.takeWhile
    (fun line => (jsStr "  - ").isPrefixOf line)).flatMap (fun line => line ++ [10])

/-- `extractAliases` (`vaultSearch.js` lines 14-43), as a function of the
file content delivered by `fs.promises.readFile`.  The regex
`/aliases:\n((?:  - .*\n)*)/` is unanchored, so it matches at the first
occurrence of `"aliases:\n"` (the starred group always succeeds). -/
def extractAliases (content : JsStr) : List JsStr :=
  if !((jsStr "---").isPrefixOf content) then []
  else
    match jsIndexOf content (jsStr "---") 3 with
    | none => []
    | some secondDash =>
      let frontmatter := (content.take secondDash).drop 3
      match jsIndexOf frontmatter (jsStr "aliases:\n") 0 with
      | none => []
      | some i =>
        let aliasesSection := takeDashLines (frontmatter.drop (i + 9))
        ((splitChar 10 aliasesSection).filter
          (fun line => (jsStr "  - ").isPrefixOf line)).map
          (fun line => jsTrim (line.drop 4))

/-! ## Filesystem model and the recursive vault scan -/

/-- A filesystem node as the scan observes it: a regular file carries the
result of `fs.promises.readFile` and of `fs.promises.stat(...).mtimeMs`;
a directory either lists its entries or (`badDir`) makes
`fs.promises.readdir` reject with the given error. -/
inductive FsEntry where
  | file (name : JsStr) (content : Except String JsStr) (mtime : Except String Nat)
  | dir (name : JsStr) (listing : List FsEntry)
  | badDir (name : JsStr) (err : String)
deriving Repr

/-- `entry.name` of a directory entry. -/
def FsEntry.name : FsEntry → JsStr
  | .file n _ _ => n
  | .dir n _ => n
  | .badDir n _ => n

mutual
/-- `scanVaultDirectory` (`noteFetcher.js` lines 74-93): reads the
directory (propagating a `readdir` rejection) and iterates over its
entries.  The async callback is modelled in a state-plus-error monad; any
callback error aborts the whole scan, as a rejected `await callback` does. -/
def scanVaultDirectory {σ : Type} (cb : JsStr → FsEntry → σ → Except String σ)
    (dirPath : JsStr) (d : FsEntry) (s : σ) : Except String σ :=
  match d with
  | .file _ _ _ => .error "ENOTDIR"
  | .badDir _ err => .error err
  | .dir _ listing => scanEntries cb dirPath listing s

/-- The `for (const entry of entries)` loop of `scanVaultDirectory`
(lines 79-92): hidden entries (leading dot) are skipped, directories are
descended into, and the callback runs on regular files with extension
`.md`. -/
def scanEntries {σ : Type} (cb : JsStr → FsEntry → σ → Except String σ)
    (dirPath : JsStr) (entries : List FsEntry) (s : σ) : Except String σ :=
  match entries with
  | [] => .ok s
  | entry :: rest =>
    let fullPath := dirPath ++ 47 :: entry.name
    if entry.name.headD 0 == 46 then scanEntries cb dirPath rest s
    else
      match entry with
      | .file n _ _ =>
        if extname n == jsStr ".md" then
          match cb fullPath entry s with
          | .error e => .error e
          | .ok s' => scanEntries cb dirPath rest s'
        else scanEntries cb dirPath rest s
      | _ =>
        match scanVaultDirectory cb fullPath entry s with
        | .error e => .error e
        | .ok s' => scanEntries cb dirPath rest s'
end

/-! ## Index build (`loadVaultNotes`) and its directory filter -/

/-- Node `path.relative(base, p)`, for the inputs the scan produces: `p` is
always `base` itself or a strict descendant `base ++ "/" ++ rest`. -/
def pathRelative (base p : JsStr) : JsStr :=
  if p == base then []
  else if (base ++ [47]).isPrefixOf p then p.drop (base.length + 1)
  else p

/-- JS `encodeURIComponent` unreserved set `[A-Za-z0-9\-_.!~*'()]`. -/
def isUriUnreserved (c : Nat) : Bool :=
  (65 ≤ c && c ≤ 90) || (97 ≤ c && c ≤ 122) || (48 ≤ c && c ≤ 57) ||
  c == 45 || c == 95 || c == 46 || c == 33 || c == 126 || c == 42 ||
  c == 39 || c == 40 || c == 41

/-- Upper-case hex digit of a nibble, as `encodeURIComponent` emits. -/
def hexDigit (n : Nat) : Nat := if n < 10 then 48 + n else 55 + n

/-- JS `encodeURIComponent` on the ASCII fragment: unreserved characters
kept, others percent-encoded. -/
def encodeURIComponent (s : JsStr) : JsStr :=
  s.flatMap (fun c =>
    if isUriUnreserved c then [c]
    else [37, hexDigit (c / 16 % 16), hexDigit (c % 16)])

/-- `createObsidianUri` (`utils/noteUriHandler.js` lines 5-29): vault name
from `path.basename`, backslashes normalized to `/`, a trailing `.md`
removed, both segments percent-encoded into the shorthand URI. -/
def createObsidianUri (vaultPath notePath : JsStr) : JsStr :=
  let vaultName := basename vaultPath
  let relativePath := notePath.map (fun c => if c == 92 then 47 else c)
  let notePathWithoutExt :=
    if (jsStr ".md").isSuffixOf relativePath then
      relativePath.take (relativePath.length - 3)
    else relativePath
  jsStr "obsidian://vault/" ++ encodeURIComponent vaultName
    ++ 47 :: encodeURIComponent notePathWithoutExt

/-- `relativePath.split(path.sep)[0]` (`vaultSearch.js` line 48): the
root-segment value the code actually computes. -/
def rootDirOf (relativePath : JsStr) : JsStr :=
  (splitChar 47 relativePath).headD []

/-- The inclusion condition of `loadVaultNotes` (`vaultSearch.js`
lines 51-55), verbatim from the `if` expression. -/
def shouldIncludeNote (selectedDirectories : List JsStr) (relativePath : JsStr) :
    Bool :=
  selectedDirectories.contains (jsStr "All")
  || (rootDirOf relativePath == []
        && selectedDirectories.contains (jsStr "Notes In Root"))
  || selectedDirectories.contains (rootDirOf relativePath)

/-- The spec's *top-level root segment*: "first path component relative to
vault root, or empty string for files directly in the root".  Written from
the spec's words, for comparison with `rootDirOf`. -/
def rootSegmentSpec (relativePath : JsStr) : JsStr :=
  if relativePath.contains 47 then (splitChar 47 relativePath).headD [] else []

/-- The spec's inclusion rule, with the spec's root segment.  Written from
the spec's words, for comparison with `shouldIncludeNote`. -/
def shouldIncludeSpec (filter : List JsStr) (relativePath : JsStr) : Bool :=
  filter.contains (jsStr "All")
  || (rootSegmentSpec relativePath == [] && filter.contains (jsStr "Notes In Root"))
  || filter.contains (rootSegmentSpec relativePath)

/-- The note object pushed onto the `notes` array (`vaultSearch.js`
lines 59-64). -/
structure LoadedNote where
  path : JsStr
  relativePath : JsStr
  aliases : List JsStr
  uri : JsStr
deriving DecidableEq, Repr

/-- `loadVaultNotes` (`vaultSearch.js` lines 8-81): scan the vault,
filter by selected directories, extract aliases (a failing `readFile`
rejects and aborts the scan), and accumulate note records in visit
order.  The outer `try` re-throws, so an error propagates unchanged. -/
def loadVaultNotes (vaultPath : JsStr) (root : FsEntry)
    (selectedDirectories : List JsStr) : Except String (List LoadedNote) :=
  scanVaultDirectory (fun fullPath entry notes =>
    let relativePath := pathRelative vaultPath fullPath
    if shouldIncludeNote selectedDirectories relativePath then
      match entry with
      | .file _ (.ok content) _ =>
        let aliases := extractAliases content
        let obsidianUri := createObsidianUri vaultPath relativePath
        let noteInfo : LoadedNote :=
          { path := fullPath, relativePath := relativePath,
            aliases := aliases, uri := obsidianUri }
        .ok (notes ++ [noteInfo])
      | .file _ (.error e) _ => .error e
      | _ => .error "EISDIR"
    else .ok notes) vaultPath root []

/-! ## Staleness check (`isVaultModified`) -/

/-- The callback of `isVaultModified` (`noteFetcher.js` lines 50-53):
`stat` the file and keep the running maximum of `mtimeMs`; it is invoked on
regular files only. -/
def statCallback : JsStr → FsEntry → Nat → Except String Nat :=
  fun _ entry latestModification =>
    match entry with
    | .file _ _ (.ok m) => .ok (max latestModification m)
    | .file _ _ (.error e) => .error e
    | _ => .ok latestModification

/-- `isVaultModified` (`noteFetcher.js` lines 46-71): scan the vault
computing the latest modification time starting from `0`; a refresh is
needed when it exceeds `lastUpdateTime`; the `catch` turns any scan error
into `true`. -/
def isVaultModified (vaultPath : JsStr) (root : FsEntry) (lastUpdateTime : Nat) :
    Bool :=
  match scanVaultDirectory statCallback vaultPath root 0 with
  | .error _ => true
  | .ok latestModification => decide (latestModification > lastUpdateTime)

mutual
/-- Declarative reformulation of the walk under a directory node: the
`mtimeMs` values of the visited `.md` files, or the error the walk fails
with.  Used to state the staleness claims independently of the callback
threading of `scanVaultDirectory`. -/
def dirNoteMtimes : FsEntry → Except String (List Nat)
  | .file _ _ _ => .error "ENOTDIR"
  | .badDir _ err => .error err
  | .dir _ listing => vaultNoteMtimes listing

/-- Declarative walk over a directory listing: hidden entries skipped,
directories flattened in order, `.md` files contributing their stat
result. -/
def vaultNoteMtimes : List FsEntry → Except String (List Nat)
  | [] => .ok []
  | e :: rest =>
    if e.name.headD 0 == 46 then vaultNoteMtimes rest
    else
      match e with
      | .file n _ mt =>
        if extname n == jsStr ".md" then
          match mt with
          | .error err => .error err
          | .ok m =>
            match vaultNoteMtimes rest with
            | .error err => .error err
            | .ok ms => .ok (m :: ms)
        else vaultNoteMtimes rest
      | _ =>
        match dirNoteMtimes e with
        | .error err => .error err
        | .ok ms₁ =>
          match vaultNoteMtimes rest with
          | .error err => .error err
          | .ok ms₂ => .ok (ms₁ ++ ms₂)
end

/-- The declarative walk of the whole vault: `dirNoteMtimes` of its root. -/
def rootNoteMtimes (root : FsEntry) : Except String (List Nat) :=
  dirNoteMtimes root

/-! ## Refresh orchestration (`updateNotesInformation`) -/

/-- JS `Map.prototype.set` on the entry list: overwrite in place when the
key exists, else append. -/
def mapSet (m : NotesCache) (k : JsStr) (v : NoteInfo) : NotesCache :=
  if m.any (fun p => p.1 == k) then m.map (fun p => if p.1 == k then (k, v) else p)
  else m ++ [(k, v)]

/-- `new Map(entries)` / `clear()`-then-`set` each entry: fold `mapSet`
from the empty map. -/
def jsNewMap (entries : NotesCache) : NotesCache :=
  entries.foldl (fun m p => mapSet m p.1 p.2) []

/-- The mutable extension state touched by a refresh: the in-memory notes
cache (a `Map`) and the last-update timestamp. -/
structure VaultState where
  notesCache : NotesCache
  lastUpdateTime : Nat
deriving DecidableEq, Repr

/-- `updateNotesInformation` (`vaultStateManager.js` lines 9-82) in a
state-plus-error monad: an error value carries the state as it stood when
the exception was thrown (the JS `catch` re-throws, and the `Map` keeps
whatever mutations had happened by then).  `loadVaultNotes` is awaited
*before* `notesCache.clear()`, so its failure carries the incoming state;
on success the cache is cleared and repopulated and the timestamp set to
`Date.now()` (`now`).  The inner `try` around `saveCache` swallows
cache-file write errors, so persisting is not modelled here. -/
def updateNotesInformation (vaultPath : JsStr) (root : FsEntry) (force : Bool)
    (now : Nat) (selectedDirectories : List JsStr) (st : VaultState) :
    Except (String × VaultState) VaultState :=
  if vaultPath == [] then .ok st
  else if !force && !isVaultModified vaultPath root st.lastUpdateTime then .ok st
  else
    match loadVaultNotes vaultPath root selectedDirectories with
    | .error e => .error (e, st)
    | .ok notes =>
      let newCache := jsNewMap (notes.map (fun note =>
        (pathRelative vaultPath note.path,
         { fullPath := note.path, aliases := note.aliases, uri := note.uri })))
      .ok { notesCache := newCache, lastUpdateTime := now }

/-! ## Persisted cache (`saveCache` / `loadCache`)

The cache file holds `JSON.stringify(cacheData)`; `loadCache` runs
`JSON.parse` on it.  Serialization is modelled at the level of the parsed
JSON value: the storage cell holds `none` when the file is missing,
`some none` when its bytes do not parse as JSON (`JSON.parse` throws), and
`some (some j)` when they parse to the value `j`.  `JSON.parse ∘
JSON.stringify` being the identity on such values is the platform's
guarantee, not this repository's code. -/

/-- Parsed JSON values (numbers restricted to the naturals used here). -/
inductive Json where
  | str (s : JsStr)
  | num (n : Nat)
  | arr (elems : List Json)
  | obj (fields : List (JsStr × Json))

/-- JS property access on a parsed object (duplicate keys are already
collapsed by `JSON.parse`, so the first binding is the binding). -/
def jsonField (fields : List (JsStr × Json)) (key : JsStr) : Option Json :=
  (fields.find? (fun p => p.1 == key)).map (fun p => p.2)

/-- JSON image of a `NoteInfo` value under `JSON.stringify`. -/
def encodeNoteInfo (info : NoteInfo) : Json :=
  .obj [(jsStr "fullPath", .str info.fullPath),
        (jsStr "aliases", .arr (info.aliases.map .str)),
        (jsStr "uri", .str info.uri)]

/-- JSON image of one `[relativePath, noteInfo]` entry of
`Array.from(notesCache.entries())`. -/
def encodeEntry (p : JsStr × NoteInfo) : Json := .arr [.str p.1, encodeNoteInfo p.2]

/-- The `cacheData` object built in `saveCache` (`cache.js` lines 23-26). -/
def encodeCacheData (notesCache : NotesCache) (lastUpdateTime : Nat) : Json :=
  .obj [(jsStr "notes", .arr (notesCache.map encodeEntry)),
        (jsStr "timestamp", .num lastUpdateTime)]

/-- `saveCache` (`cache.js` lines 18-38): the storage cell after a
successful write. -/
def saveCache (notesCache : NotesCache) (lastUpdateTime : Nat) :
    Option (Option Json) :=
  some (some (encodeCacheData notesCache lastUpdateTime))

/-- Reading a JSON string back. -/
def decodeJsonStr : Json → Option JsStr
  | .str s => some s
  | _ => none

/-- Reading a JSON array of strings back, in order. -/
def decodeStrList : List Json → Option (List JsStr)
  | [] => some []
  | j :: rest =>
    match decodeJsonStr j with
    | none => none
    | some s => (decodeStrList rest).map (fun ss => s :: ss)

/-- Reading a `NoteInfo` back from its JSON image; any other shape makes
the later uses of the record throw, which the `catch` in `loadCache`
absorbs. -/
def decodeNoteInfo : Json → Option NoteInfo
  | .obj fields =>
    (match jsonField fields (jsStr "fullPath"), jsonField fields (jsStr "aliases"),
        jsonField fields (jsStr "uri") with
     | some (.str fp), some (.arr als), some (.str uri) =>
       (decodeStrList als).map (fun as => ⟨fp, as, uri⟩)
     | _, _, _ => none)
  | _ => none

/-- Reading one `Map` entry back: `new Map(...)` requires a `[key, value]`
pair. -/
def decodeEntry : Json → Option (JsStr × NoteInfo)
  | .arr [.str k, v] => (decodeNoteInfo v).map (fun i => (k, i))
  | _ => none

/-- Reading the entry list back, in the order `new Map(cacheData.notes)`
iterates it. -/
def decodeEntries : List Json → Option (List (JsStr × NoteInfo))
  | [] => some []
  | j :: rest =>
    match decodeEntry j with
    | none => none
    | some p => (decodeEntries rest).map (fun ps => p :: ps)

/-- Reading the `cacheData` object back: the `notes` array feeds
`new Map(cacheData.notes)` and `timestamp` is taken as is. -/
def decodeCacheData : Json → Option (List (JsStr × NoteInfo) × Nat)
  | .obj fields =>
    (match jsonField fields (jsStr "notes"), jsonField fields (jsStr "timestamp") with
     | some (.arr entries), some (.num ts) =>
       (decodeEntries entries).map (fun es => (es, ts))
     | _, _ => none)
  | _ => none

/-- The record `loadCache` resolves with (`cache.js` lines 53, 66, 69). -/
structure LoadResult where
  notesCache : NotesCache
  lastUpdateTime : Nat
  cacheLoaded : Bool
deriving DecidableEq, Repr

/-- `loadCache` (`cache.js` lines 41-71): a missing file returns the
caller's values with `cacheLoaded = false`; unparsable bytes or a shape the
`Map` reconstruction rejects are caught and do the same; otherwise the
parsed entries rebuild the `Map` and the stored timestamp is returned with
`cacheLoaded = true`.  The function is total: it never throws. -/
def loadCache (storage : Option (Option Json)) (notesCache : NotesCache)
    (lastUpdateTime : Nat) : LoadResult :=
  match storage with
  | none => ⟨notesCache, lastUpdateTime, false⟩
  | some none => ⟨notesCache, lastUpdateTime, false⟩
  | some (some j) =>
    match decodeCacheData j with
    | none => ⟨notesCache, lastUpdateTime, false⟩
    | some (entries, ts) => ⟨jsNewMap entries, ts, true⟩

/-! ## Concrete fixtures used by the theorems below -/

/-- A cached record for a note file `Foo.md` with no aliases. -/
def fooNote : NoteInfo :=
  { fullPath := jsStr "/vault/Foo.md", aliases := [], uri := jsStr "u" }

/-- An index holding the single note `Foo.md`. -/
def cacheFoo : NotesCache := [(jsStr "Foo.md", fooNote)]

/-- A vault whose root directory holds the single note file `Foo.md`. -/
def fsRootOnly : FsEntry :=
  .dir (jsStr "vault") [.file (jsStr "Foo.md") (.ok (jsStr "# Foo")) (.ok 1)]

/-- A vault whose root contains a subdirectory on which `readdir`
rejects. -/
def fsBad : FsEntry := .dir (jsStr "v") [.badDir (jsStr "sub") "EACCES"]

/-- A pre-existing in-memory state holding one note record. -/
def st0 : VaultState := ⟨[(jsStr "Old.md", ⟨jsStr "/v/Old.md", [], jsStr "u"⟩)], 7⟩

/-! ## Helper lemmas -/

/-- The alias loop returns the head of the record's matching aliases, in
declaration order. -/
theorem aliasLoop_eq_head (ns : JsStr) (ci norm : Bool) (rp : JsStr)
    (info : NoteInfo) (l : List JsStr) :
    aliasLoop ns ci norm rp info l =
      (l.filterMap (fun al =>
        if compareField al ci norm == ns then some (aliasResult rp info al)
        else none)).head? := by
  induction l with
  | nil => rfl
  | cons a rest ih =>
    simp only [aliasLoop, List.filterMap_cons]
    by_cases h : compareField a ci norm == ns
    · simp [h]
    · simp [h, ih]

/-- The record loop returns the head of the ordered candidate list. -/
theorem findLoop_eq_head (ns : JsStr) (ci norm : Bool) (cache : NotesCache) :
    findLoop ns ci norm cache =
      (cache.flatMap (fun p => recordCandidates ns ci norm p.1 p.2)).head? := by
  induction cache with
  | nil => rfl
  | cons p rest ih =>
    obtain ⟨rp, info⟩ := p
    simp only [findLoop, List.flatMap_cons]
    set L := rest.flatMap (fun p => recordCandidates ns ci norm p.1 p.2) with hL
    rw [show recordCandidates ns ci norm rp info =
      (if compareField (basenameMd rp) ci norm == ns then
        [filenameResult rp info] else [])
      ++ info.aliases.filterMap (fun al =>
          if compareField al ci norm == ns then some (aliasResult rp info al)
          else none) from rfl]
    by_cases h : compareField (basenameMd rp) ci norm == ns
    · simp [h]
    · simp only [h, Bool.false_eq_true, if_false, ite_false, List.nil_append]
      rw [aliasLoop_eq_head]
      rcases hl : (info.aliases.filterMap (fun al =>
        if compareField al ci norm == ns then some (aliasResult rp info al)
        else none)) with _ | ⟨r, t⟩
      · simp [hl, ih]
      · simp [hl]

/-- One pass is the head of its candidate list. -/
theorem findExactMatch_eq_head (w : JsStr) (ci norm : Bool) (cache : NotesCache) :
    findExactMatch w ci norm cache = (passCandidates w ci norm cache).head? := by
  simp only [findExactMatch, passCandidates]
  exact findLoop_eq_head _ ci norm cache

/-- Lower-casing does not change membership in the allowed trailing
class. -/
theorem isAllowedTrailing_lower (c : Nat) :
    isAllowedTrailing (jsCharToLower c) = isAllowedTrailing c := by
  simp only [isAllowedTrailing, isWordChar, jsCharToLower]
  split_ifs with h
  · rw [Bool.eq_iff_iff]
    simp only [Bool.or_eq_true, Bool.and_eq_true, decide_eq_true_eq, beq_iff_eq]
    omega
  · rfl

/-- ASCII lower-casing is idempotent on one code unit. -/
theorem jsCharToLower_idem (c : Nat) :
    jsCharToLower (jsCharToLower c) = jsCharToLower c := by
  simp only [jsCharToLower]
  split_ifs <;> omega

/-- `dropWhile` commutes with lower-casing when the predicate is
case-blind. -/
theorem dropWhile_map_lower (g : Nat → Bool)
    (hg : ∀ c, g (jsCharToLower c) = g c) (l : List Nat) :
    (l.map jsCharToLower).dropWhile g = (l.dropWhile g).map jsCharToLower := by
  induction l with
  | nil => rfl
  | cons a t ih =>
    simp only [List.map_cons, List.dropWhile_cons, hg a]
    by_cases h : g a = true
    · rw [if_pos h, if_pos h, ih]
    · rw [if_neg h, if_neg h]
      rfl

/-- Trailing-stripping commutes with lower-casing. -/
theorem strip_lower_comm (s : JsStr) :
    stripTrailingDisallowed (jsToLower s) = jsToLower (stripTrailingDisallowed s) := by
  simp only [stripTrailingDisallowed, jsToLower]
  rw [← List.map_reverse, dropWhile_map_lower, List.map_reverse]
  intro c
  rw [isAllowedTrailing_lower]

/-- ASCII lower-casing is idempotent on strings. -/
theorem jsToLower_idem (s : JsStr) : jsToLower (jsToLower s) = jsToLower s := by
  simp only [jsToLower, List.map_map]
  exact List.map_congr_left (fun c _ => jsCharToLower_idem c)

/-- The case-insensitive normalized key depends only on the lower-cased
input. -/
theorem normalize_lower_eq (w₁ w₂ : JsStr) (h : jsToLower w₁ = jsToLower w₂) :
    normalizeForComparison w₁ true = normalizeForComparison w₂ true := by
  simp only [normalizeForComparison, if_true]
  rw [← strip_lower_comm, ← strip_lower_comm, h]

/-- An alias-loop result comes from one of the record's declared
aliases. -/
theorem aliasLoop_sound {ns : JsStr} {ci norm : Bool} {rp : JsStr}
    {info : NoteInfo} {l : List JsStr} {r : MatchResult}
    (h : aliasLoop ns ci norm rp info l = some r) :
    ∃ a ∈ l, r = aliasResult rp info a := by
  induction l with
  | nil => simp [aliasLoop] at h
  | cons a t ih =>
    rw [aliasLoop] at h
    split at h
    · exact ⟨a, List.mem_cons_self a t, (Option.some_inj.mp h).symm⟩
    · obtain ⟨a', ha', hr⟩ := ih h
      exact ⟨a', List.mem_cons_of_mem a ha', hr⟩

/-- A record-loop result is well-formed with respect to the cache. -/
theorem findLoop_sound {ns : JsStr} {ci norm : Bool} {cache : NotesCache}
    {r : MatchResult} (h : findLoop ns ci norm cache = some r) :
    ∃ info, (r.path, info) ∈ cache ∧
      ((r.type = jsStr "filename" ∧ r.matchedAlias = none) ∨
       (r.type = jsStr "alias" ∧
         ∃ a, r.matchedAlias = some a ∧ a ∈ info.aliases)) := by
  induction cache with
  | nil => simp [findLoop] at h
  | cons p rest ih =>
    obtain ⟨rp, info⟩ := p
    rw [findLoop] at h
    split at h
    · obtain rfl : filenameResult rp info = r := Option.some_inj.mp h
      exact ⟨info, List.mem_cons_self _ _, Or.inl ⟨rfl, rfl⟩⟩
    · split at h
      all_goals rename_i halias
      · obtain ⟨a, ha, rfl⟩ := aliasLoop_sound halias
        have hr := Option.some_inj.mp h
        subst hr
        exact ⟨info, List.mem_cons_self _ _, Or.inr ⟨rfl, a, rfl, ha⟩⟩
      · obtain ⟨info', hmem, hx⟩ := ih h
        exact ⟨info', List.mem_cons_of_mem _ hmem, hx⟩

/-- The callback-threaded stat scan computes the running maximum over the
mtimes of the declarative walk. -/
theorem scanVaultDirectory_stat :
    ∀ d : FsEntry, ∀ (dirPath : JsStr) (acc : Nat),
      scanVaultDirectory statCallback dirPath d acc =
        (dirNoteMtimes d).map (fun ms => ms.foldl max acc) := by
  refine dirNoteMtimes.induct
    (fun d => ∀ dirPath acc, scanVaultDirectory statCallback dirPath d acc =
      (dirNoteMtimes d).map (fun ms => ms.foldl max acc))
    (fun es => ∀ dirPath acc, scanEntries statCallback dirPath es acc =
      (vaultNoteMtimes es).map (fun ms => ms.foldl max acc))
    ?_ ?_ ?_ ?_ ?_ ?_ ?_ ?_ ?_ ?_ ?_ ?_
  · intro n c mt dp acc
    rfl
  · intro n err dp acc
    rfl
  · intro n listing ih dp acc
    exact ih dp acc
  · intro dp acc
    rfl
  · intro entry rest hh ih dp acc
    simp only [scanEntries, vaultNoteMtimes, hh, if_true]
    exact ih dp acc
  · intro rest n c hmd a hh dp acc
    simp only [scanEntries, vaultNoteMtimes, hh, if_false, Bool.false_eq_true,
      ite_false, hmd, if_true, statCallback]
    rfl
  · intro rest n c hmd m err hrest hh ih dp acc
    simp only [scanEntries, vaultNoteMtimes, hh, Bool.false_eq_true, ite_false,
      hmd, if_true, statCallback]
    rw [ih dp (max acc m), hrest]
    rfl
  · intro rest n c hmd m ms hrest hh ih dp acc
    simp only [scanEntries, vaultNoteMtimes, hh, Bool.false_eq_true, ite_false,
      hmd, if_true, statCallback]
    rw [ih dp (max acc m), hrest]
    rfl
  · intro rest n c mt hmd hh ih dp acc
    simp only [scanEntries, vaultNoteMtimes, hh, Bool.false_eq_true, ite_false,
      hmd, if_false]
    exact ih dp acc
  · intro entry rest hh err hdir hnotfile ih dp acc
    cases entry with
    | file n c mt => exact absurd rfl (hnotfile n c mt)
    | dir n listing =>
      simp only [scanEntries, vaultNoteMtimes, hh, Bool.false_eq_true, ite_false]
      rw [ih (dp ++ 47 :: FsEntry.name (.dir n listing)) acc, hdir]
      rfl
    | badDir n err' =>
      simp only [scanEntries, vaultNoteMtimes, hh, Bool.false_eq_true, ite_false]
      rw [ih (dp ++ 47 :: FsEntry.name (.badDir n err')) acc, hdir]
      rfl
  · intro entry rest hh ms hdir err hrest hnotfile ih ihrest dp acc
    cases entry with
    | file n c mt => exact absurd rfl (hnotfile n c mt)
    | dir n listing =>
      simp only [scanEntries, vaultNoteMtimes, hh, Bool.false_eq_true, ite_false]
      rw [ih (dp ++ 47 :: FsEntry.name (.dir n listing)) acc, hdir]
      simp only [Except.map]
      rw [ihrest dp (ms.foldl max acc), hrest]
      rfl
    | badDir n err' =>
      simp [dirNoteMtimes] at hdir
  · intro entry rest hh ms₁ hdir ms₂ hrest hnotfile ih ihrest dp acc
    cases entry with
    | file n c mt => exact absurd rfl (hnotfile n c mt)
    | dir n listing =>
      simp only [scanEntries, vaultNoteMtimes, hh, Bool.false_eq_true, ite_false]
      rw [ih (dp ++ 47 :: FsEntry.name (.dir n listing)) acc, hdir]
      simp only [Except.map]
      rw [ihrest dp (ms₁.foldl max acc), hrest]
      simp [Except.map, List.foldl_append]
    | badDir n err' =>
      simp [dirNoteMtimes] at hdir

/-- Decoding inverts encoding on string arrays. -/
theorem decodeStrList_encode (l : List JsStr) :
    decodeStrList (l.map Json.str) = some l := by
  induction l with
  | nil => rfl
  | cons a t ih => simp [decodeStrList, decodeJsonStr, ih]

/-- Decoding inverts encoding on note records. -/
theorem decodeNoteInfo_encode (i : NoteInfo) :
    decodeNoteInfo (encodeNoteInfo i) = some i := by
  have h1 : jsonField [(jsStr "fullPath", Json.str i.fullPath),
      (jsStr "aliases", Json.arr (i.aliases.map Json.str)),
      (jsStr "uri", Json.str i.uri)] (jsStr "fullPath")
      = some (Json.str i.fullPath) := rfl
  have h2 : jsonField [(jsStr "fullPath", Json.str i.fullPath),
      (jsStr "aliases", Json.arr (i.aliases.map Json.str)),
      (jsStr "uri", Json.str i.uri)] (jsStr "aliases")
      = some (Json.arr (i.aliases.map Json.str)) := rfl
  have h3 : jsonField [(jsStr "fullPath", Json.str i.fullPath),
      (jsStr "aliases", Json.arr (i.aliases.map Json.str)),
      (jsStr "uri", Json.str i.uri)] (jsStr "uri")
      = some (Json.str i.uri) := rfl
  simp [decodeNoteInfo, encodeNoteInfo, h1, h2, h3, decodeStrList_encode]

/-- Decoding inverts encoding on map entries. -/
theorem decodeEntry_encode (p : JsStr × NoteInfo) :
    decodeEntry (encodeEntry p) = some p := by
  simp [decodeEntry, encodeEntry, decodeNoteInfo_encode]

/-- Decoding inverts encoding on entry lists. -/
theorem decodeEntries_encode (l : NotesCache) :
    decodeEntries (l.map encodeEntry) = some l := by
  induction l with
  | nil => rfl
  | cons p t ih => simp [decodeEntries, decodeEntry_encode, ih]

/-- Decoding inverts encoding on the whole cache object. -/
theorem decodeCacheData_encode (c : NotesCache) (t : Nat) :
    decodeCacheData (encodeCacheData c t) = some (c, t) := by
  have h1 : jsonField [(jsStr "notes", Json.arr (c.map encodeEntry)),
      (jsStr "timestamp", Json.num t)] (jsStr "notes")
      = some (Json.arr (c.map encodeEntry)) := rfl
  have h2 : jsonField [(jsStr "notes", Json.arr (c.map encodeEntry)),
      (jsStr "timestamp", Json.num t)] (jsStr "timestamp")
      = some (Json.num t) := rfl
  simp [decodeCacheData, encodeCacheData, h1, h2, decodeEntries_encode]

/-- Folding `Map.set` over entries with fresh keys appends them. -/
theorem foldl_mapSet (l : NotesCache) : ∀ m : NotesCache,
    ((m ++ l).map Prod.fst).Nodup →
    l.foldl (fun acc p => mapSet acc p.1 p.2) m = m ++ l := by
  induction l with
  | nil => intro m _; simp
  | cons p l ih =>
    intro m h
    obtain ⟨k, v⟩ := p
    have hk : k ∉ m.map Prod.fst := by
      simp only [List.map_append, List.map_cons, List.nodup_append] at h
      intro hmem
      exact h.2.2 hmem (List.mem_cons_self _ _)
    have hset : mapSet m k v = m ++ [(k, v)] := by
      rw [mapSet, if_neg]
      simp only [List.any_eq_true, beq_iff_eq, not_exists]
      intro q hq
      rcases hq with ⟨hqm, hqk⟩
      exact hk (hqk ▸ List.mem_map_of_mem Prod.fst hqm)
    rw [List.foldl_cons, hset, ih (m ++ [(k, v)]) (by simpa using h)]
    simp

/-- Rebuilding a map from entries with unique keys reproduces them. -/
theorem jsNewMap_self (c : NotesCache) (h : (c.map Prod.fst).Nodup) :
    jsNewMap c = c := by
  simpa [jsNewMap] using foldl_mapSet c [] (by simpa using h)

/-! ## Claim theorems -/

/-- Claim C1: the spec's inclusion rule says a file directly in the vault
root (spec root segment: the empty string) is indexed whenever the filter
contains the root-notes sentinel.  The code computes the root segment as
`relativePath.split(path.sep)[0]`, which for a root-level file is the file
name itself and never the empty string, so the `rootDir === ""` branch is
unreachable and the root-level file `Foo.md` is excluded under the filter
`{"Notes In Root"}` — the build of a one-root-file vault yields an empty
index. -/
theorem rootNotes_sentinel_excludes_root_file :
    shouldIncludeNote [jsStr "Notes In Root"] (jsStr "Foo.md") = false
    ∧ rootDirOf (jsStr "Foo.md") = jsStr "Foo.md"
    ∧ rootSegmentSpec (jsStr "Foo.md") = []
    ∧ shouldIncludeSpec [jsStr "Notes In Root"] (jsStr "Foo.md") = true
    ∧ loadVaultNotes (jsStr "/vault") fsRootOnly [jsStr "Notes In Root"] = .ok [] :=
  ⟨by decide, by decide, by decide, by decide, rfl⟩

/-- Claim C2, counterexample: with the index holding `Foo.md`,
case-insensitive resolution of `"foo."` returns no match at all — not a
filename match — because the trailing period belongs to the allowed class
`[\w.-]` and is not stripped by normalization. -/
theorem trailing_period_returns_no_match :
    findNoteMatch (jsStr "foo.") cacheFoo ⟨true⟩ = none := by decide

/-- Claim C2, amended: `"foo."` resolves to nothing (the trailing period is
inside the allowed set and survives normalization, so neither pass matches
the title `Foo`); a word with a trailing character outside the allowed set,
such as `"foo)"`, fails the raw pass and resolves to the filename match via
the normalized pass; `"xfoo"` returns no match. -/
theorem trailing_punctuation_resolution :
    findNoteMatch (jsStr "foo.") cacheFoo ⟨true⟩ = none
    ∧ findExactMatch (jsStr "foo)") true false cacheFoo = none
    ∧ findNoteMatch (jsStr "foo)") cacheFoo ⟨true⟩ =
        some (filenameResult (jsStr "Foo.md") fooNote)
    ∧ findNoteMatch (jsStr "xfoo") cacheFoo ⟨true⟩ = none :=
  ⟨by decide, by decide, by decide, by decide⟩

/-- Claim C3: match resolution is two-pass with first-pass priority and a
fixed order — the result is the head of the concatenation of the raw
pass's candidate list and the normalized pass's candidate list, where each
pass's candidates visit records in index insertion order and, within a
record, the filename-derived title (tagged `filename`) before the aliases
in declaration order (tagged `alias`). -/
theorem findNoteMatch_two_pass_first_match (w : JsStr) (cache : NotesCache)
    (cfg : SearchConfig) :
    findNoteMatch w cache cfg =
      (passCandidates w cfg.CASE_INSENSITIVE false cache
        ++ passCandidates (normalizeForComparison w cfg.CASE_INSENSITIVE)
            cfg.CASE_INSENSITIVE true cache).head? := by
  simp only [findNoteMatch]
  rw [findExactMatch_eq_head, findExactMatch_eq_head]
  rcases h : passCandidates w cfg.CASE_INSENSITIVE false cache with _ | ⟨r, t⟩
  · simp
  · simp

/-- Claim C4, counterexample: a content whose first line is `"----"` (not a
delimiter line of exactly three hyphens) still yields aliases, because the
code only checks the three-character prefix `"---"` and searches for the
next occurrence of `"---"` anywhere. -/
theorem extractAliases_prefix_counterexample :
    extractAliases (jsStr "----\naliases:\n  - x\n---\n") = [jsStr "x"]
    ∧ (splitChar 10 (jsStr "----\naliases:\n  - x\n---\n")).headD [] ≠ jsStr "---" :=
  ⟨by decide, by decide⟩

/-- Claim C4, amended: `extractAliases` returns the empty sequence unless
the content *starts with the three-character prefix* `"---"` (the check is
a prefix check, not an exact-line check); and when no second occurrence of
`"---"` exists at or after index 3, it returns the empty sequence
(unterminated front matter is not an error). -/
theorem extractAliases_empty_cases :
    (∀ content : JsStr, ¬ (jsStr "---").isPrefixOf content →
      extractAliases content = [])
    ∧ (∀ content : JsStr, jsIndexOf content (jsStr "---") 3 = none →
      extractAliases content = []) := by
  constructor
  · intro content h
    have hb : (jsStr "---").isPrefixOf content = false := by
      cases hx : (jsStr "---").isPrefixOf content
      · rfl
      · exact absurd hx h
    simp [extractAliases, hb]
  · intro content h
    by_cases hp : (jsStr "---").isPrefixOf content
    · simp [extractAliases, hp, h]
    · have hb : (jsStr "---").isPrefixOf content = false := by
        cases hx : (jsStr "---").isPrefixOf content
        · rfl
        · exact absurd hx hp
      simp [extractAliases, hb]

/-- Claim C4, witness: both amended branches at concrete inputs. -/
theorem extractAliases_empty_cases_check :
    extractAliases (jsStr "hello") = [] ∧ extractAliases (jsStr "---abc") = [] :=
  ⟨extractAliases_empty_cases.1 (jsStr "hello") (by decide),
   extractAliases_empty_cases.2 (jsStr "---abc") (by decide)⟩

/-- Claim C5: when the vault path is set and the update proceeds (forced,
or the staleness check asks for a refresh), a failing `loadVaultNotes`
makes the whole build abort with that same error, and the state carried at
the throw point is exactly the incoming state — the previous in-memory
index is untouched and no partial index is committed. -/
theorem updateNotesInformation_failure_preserves_state
    (vaultPath : JsStr) (root : FsEntry) (force : Bool) (now : Nat)
    (dirs : List JsStr) (st : VaultState) (e : String)
    (hv : vaultPath ≠ [])
    (hrun : force = true ∨ isVaultModified vaultPath root st.lastUpdateTime = true)
    (hload : loadVaultNotes vaultPath root dirs = .error e) :
    updateNotesInformation vaultPath root force now dirs st = .error (e, st) := by
  rw [updateNotesInformation]
  rw [if_neg (by simpa using hv)]
  have hcond : (!force && !isVaultModified vaultPath root st.lastUpdateTime) = false := by
    rcases hrun with h | h <;> simp [h]
  rw [hcond, if_neg (by simp), hload]

/-- Claim C5, witness: a forced update over a vault with an unreadable
subdirectory fails with the `readdir` error and returns the incoming state
unchanged inside the error. -/
theorem updateNotesInformation_failure_check :
    loadVaultNotes (jsStr "/v") fsBad [jsStr "All"] = .error "EACCES"
    ∧ updateNotesInformation (jsStr "/v") fsBad true 99 [jsStr "All"] st0 =
        .error ("EACCES", st0) :=
  ⟨rfl, updateNotesInformation_failure_preserves_state (jsStr "/v") fsBad true 99
    [jsStr "All"] st0 "EACCES" (by decide) (Or.inl rfl) rfl⟩

/-- Claim C6: the staleness check returns `true` exactly when the walk over
the vault fails (fail-open) or the maximum note-file modification time
(starting from `0`) exceeds `lastUpdateTime`; and an empty vault (the walk
yields no note files) gives `false` even when `lastUpdateTime` is `0`. -/
theorem isVaultModified_stale_iff (v : JsStr) (root : FsEntry) (t : Nat) :
    (isVaultModified v root t = true ↔
      (∃ e, rootNoteMtimes root = .error e) ∨
      (∃ ms, rootNoteMtimes root = .ok ms ∧ ms.foldl max 0 > t))
    ∧ (rootNoteMtimes root = .ok [] → isVaultModified v root 0 = false) := by
  have hscan := scanVaultDirectory_stat root v 0
  simp only [isVaultModified, rootNoteMtimes]
  rcases h : dirNoteMtimes root with e | ms
  · rw [h] at hscan
    rw [hscan]
    simp [Except.map]
  · rw [h] at hscan
    rw [hscan]
    constructor
    · simp [Except.map]
    · intro h0
      obtain rfl : ms = [] := by injection h0
      simp [Except.map, List.foldl]

/-- Claim C6, witness: on an empty vault the staleness check applied at
`lastBuildTime = 0` returns `false`. -/
theorem isVaultModified_empty_vault_check :
    isVaultModified (jsStr "/v") (FsEntry.dir (jsStr "v") []) 0 = false :=
  (isVaultModified_stale_iff (jsStr "/v") (FsEntry.dir (jsStr "v") []) 0).2 rfl

/-- Claim C7: saving a notes cache (with the `Map` invariant of unique
keys) together with a timestamp and loading it back reproduces the same
record list, the same timestamp, and reports `cacheLoaded = true` —
save followed by load is a content no-op. -/
theorem saveCache_loadCache_roundtrip (cache : NotesCache) (ts : Nat)
    (fallbackCache : NotesCache) (fallbackTs : Nat)
    (h : (cache.map Prod.fst).Nodup) :
    loadCache (saveCache cache ts) fallbackCache fallbackTs = ⟨cache, ts, true⟩ := by
  simp [loadCache, saveCache, decodeCacheData_encode, jsNewMap_self cache h]

/-- Claim C7, witness: the round trip at a concrete one-record cache. -/
theorem saveCache_loadCache_roundtrip_check :
    loadCache (saveCache [(jsStr "a.md", fooNote)] 5) [] 0 =
      ⟨[(jsStr "a.md", fooNote)], 5, true⟩ :=
  saveCache_loadCache_roundtrip [(jsStr "a.md", fooNote)] 5 [] 0 (by decide)

/-- Claim C8: cache loading never throws (the embedding is a total
function); with an empty in-memory index, a missing cache file yields the
empty index with `cacheLoaded = false`, and an unparsable cache file
likewise yields the empty index with `cacheLoaded = false`. -/
theorem loadCache_missing_or_corrupt :
    loadCache none [] 0 = ⟨[], 0, false⟩
    ∧ loadCache (some none) [] 0 = ⟨[], 0, false⟩ :=
  ⟨rfl, rfl⟩

/-- Claim C9: with case-insensitive comparison enabled, match resolution is
invariant under the letter case of the input word — two words with the same
lower-casing resolve identically against every index. -/
theorem findNoteMatch_case_invariant (cache : NotesCache) (w₁ w₂ : JsStr)
    (cfg : SearchConfig) (hci : cfg.CASE_INSENSITIVE = true)
    (h : jsToLower w₁ = jsToLower w₂) :
    findNoteMatch w₁ cache cfg = findNoteMatch w₂ cache cfg := by
  simp only [findNoteMatch, findExactMatch, hci, if_true]
  rw [h, normalize_lower_eq w₁ w₂ h]

/-- Claim C9, witness: `"FOO"` and `"foo"` resolve identically against the
`Foo.md` index. -/
theorem findNoteMatch_case_invariant_check :
    findNoteMatch (jsStr "FOO") cacheFoo ⟨true⟩ =
      findNoteMatch (jsStr "foo") cacheFoo ⟨true⟩ :=
  findNoteMatch_case_invariant cacheFoo (jsStr "FOO") (jsStr "foo") ⟨true⟩ rfl
    (by decide)

/-- Claim C10: every non-`none` resolution result is well-formed for the
index it was resolved against: its `path` is a key present in the index,
its `type` is `"filename"` with no `matchedAlias`, or `"alias"` with
`matchedAlias` one of that record's declared aliases in original form. -/
theorem findNoteMatch_wellformed (w : JsStr) (cache : NotesCache)
    (cfg : SearchConfig) (r : MatchResult)
    (h : findNoteMatch w cache cfg = some r) :
    ∃ info, (r.path, info) ∈ cache ∧
      ((r.type = jsStr "filename" ∧ r.matchedAlias = none) ∨
       (r.type = jsStr "alias" ∧
         ∃ a, r.matchedAlias = some a ∧ a ∈ info.aliases)) := by
  rw [findNoteMatch] at h
  split at h
  · rename_i m hm
    rw [findExactMatch] at hm
    exact findLoop_sound (hm.trans h)
  · rw [findExactMatch] at h
    exact findLoop_sound h

/-- Claim C10, witness: the filename match for `"Foo"` is well-formed for
the `Foo.md` index. -/
theorem findNoteMatch_wellformed_check :
    ∃ info, ((filenameResult (jsStr "Foo.md") fooNote).path, info) ∈ cacheFoo ∧
      (((filenameResult (jsStr "Foo.md") fooNote).type = jsStr "filename" ∧
        (filenameResult (jsStr "Foo.md") fooNote).matchedAlias = none) ∨
       ((filenameResult (jsStr "Foo.md") fooNote).type = jsStr "alias" ∧
        ∃ a, (filenameResult (jsStr "Foo.md") fooNote).matchedAlias = some a ∧
          a ∈ info.aliases)) :=
  findNoteMatch_wellformed (jsStr "Foo") cacheFoo ⟨true⟩
    (filenameResult (jsStr "Foo.md") fooNote) (by decide)

end ObsidianTooltips
